import Mathlib

/-!
Shallow embedding of the grammar_school core (src/python/grammar_school):
the AST model (ast.py), the interpreter / dispatch engine with argument
coercion (interpreter.py), and the execute dispatch loop (grammar.py).

Python's dynamically-typed runtime values are embedded as the inductive
type `Obj`.  A verb handler (a Python callable collected by
`Interpreter._collect_verbs`) is a Lean function from coerced arguments
and a context to a result `Obj`; since every handler a coerced argument
can refer to lives in the verb registry under its name, a handler object
appearing as a *value* (the result of resolving a function reference) is
represented by the defunctionalized constructor `Obj.func name`.
-/

namespace GrammarSchool

/-- Dynamic Python runtime values, as far as the interpreter core
inspects them: `noneObj` is Python `None`, `action` is the `Action`
dataclass (runtime.py) with its `kind` and `payload` fields, `tuple` and
`list` are the two sequence shapes `interpret_stream` branches on, and
`func` is a verb-handler object named by its registry key. -/
inductive Obj where
  | noneObj
  | int (n : Int)
  | str (s : String)
  | bool (b : Bool)
  | action (kind : String) (payload : List (String × Obj))
  | tuple (elems : List Obj)
  | list (elems : List Obj)
  | func (name : String)

/-- `Value` dataclass from ast.py: a `kind` tag plus the decoded payload. -/
structure Value where
  kind : String
  value : Obj

/-- `Call` dataclass from ast.py.  The Python `dict[str, Value]` is
embedded as an association list in insertion order; dict key uniqueness
is a hypothesis (`Nodup` on the keys) where a theorem needs it. -/
structure Call where
  name : String
  args : List (String × Value)

/-- `CallChain` dataclass from ast.py. -/
structure CallChain where
  calls : List Call

/-- A verb handler: receives the coerced-argument dict and the `_context`
keyword argument, returns a dynamic result. -/
abbrev Handler := List (String × Obj) → Obj → Obj

/-- The verb registry `Interpreter._verb_handlers`: a name-to-handler map
built once at construction. -/
abbrev Registry := List (String × Handler)

/-- The two `ValueError`s `Interpreter.interpret_stream` raises:
`Unknown verb: {name}` and `Verb handler {verb} returned invalid
result: {result}`. -/
inductive InterpError where
  | unknownVerb (name : String)
  | invalidResult (verb : String) (result : Obj)

/-- Decimal digit run to a number: `Option.none` unless the characters
are one or more digits (computable structurally, unlike the library's
string-position loops). -/
def digitsToNat : List Char → Option Nat
  | [] => Option.none
  | cs =>
    if cs.all Char.isDigit then
      Option.some (cs.foldl (fun n c => 10 * n + (c.toNat - 48)) 0)
    else Option.none

/-- Strip leading and trailing whitespace from a character list. -/
def trimChars (cs : List Char) : List Char :=
  ((cs.dropWhile Char.isWhitespace).reverse.dropWhile Char.isWhitespace).reverse

/-- Python `int(s)` on a segment produced by `str.split("_")` (so the
segment contains no underscore): optional surrounding whitespace, an
optional sign, then at least one ASCII digit; anything else raises
`ValueError`, i.e. is `Option.none` here. -/
def parseIndex (s : String) : Option Int :=
  match trimChars s.toList with
  | '-' :: rest => (digitsToNat rest).map (fun n => -(n : Int))
  | '+' :: rest => (digitsToNat rest).map (fun n => (n : Int))
  | cs => (digitsToNat cs).map (fun n => (n : Int))

/-- Whether one character list is a prefix of another. -/
def isPrefixOfChars : List Char → List Char → Bool
  | [], _ => true
  | _ :: _, [] => false
  | c :: cs, d :: ds => c = d && isPrefixOfChars cs ds

/-- `name.startswith("_positional_")` from `_coerce_args`. -/
def isPositionalKey (name : String) : Bool :=
  isPrefixOfChars "_positional_".toList name.toList

/-- Python `str.split(sep)` for a one-character separator: splits at
every occurrence, keeping empty segments (`"_x_".split("_") ==
["", "x", ""]`). -/
def splitOnChar (sep : Char) : List Char → List (List Char)
  | [] => [[]]
  | c :: cs =>
    let r := splitOnChar sep cs
    if c = sep then [] :: r
    else
      match r with
      | [] => [[c]]
      | s :: ss => (c :: s) :: ss

/-- `name.split("_")[-1]`, the segment `_coerce_args` feeds to `int`. -/
def lastSegment (name : String) : String :=
  String.mk ((splitOnChar '_' name.toList).getLastD [])

/-- Python string comparison (lexicographic by code point), computable
structurally, unlike the library's iterator-based string order. -/
def charListLe : List Char → List Char → Bool
  | [], _ => true
  | _ :: _, [] => false
  | c :: cs, d :: ds =>
    if c.toNat = d.toNat then charListLe cs ds else Nat.blt c.toNat d.toNat

/-- `sorted(args.items())` from `_coerce_args`: with unique dict keys the
tuples are ordered by their first component, compared as Python compares
strings. -/
def sortByName (args : List (String × Value)) : List (String × Value) :=
  List.insertionSort (fun a b => charListLe a.1.toList b.1.toList = true) args

/-- First loop of `_coerce_args`: walk `sorted(args.items())`, keep the
entries whose key starts with `_positional_`, parse the trailing index,
and silently skip an entry whose index does not parse (`except
ValueError: pass`). -/
def positionalEntries (args : List (String × Value)) : List (Int × Value) :=
  (sortByName args).filterMap (fun p =>
    if isPositionalKey p.1 then (parseIndex (lastSegment p.1)).map (fun i => (i, p.2))
    else Option.none)

/-- `sorted(positional_args)` from `_coerce_args`.  Python sorts the
`(index, value)` tuples lexicographically; when all indices are distinct
(equal indices make Python compare `Value` dataclasses and raise
`TypeError`) this is exactly a sort on the index. -/
def sortByIndex (entries : List (Int × Value)) : List (Int × Value) :=
  List.insertionSort (fun a b => a.1 ≤ b.1) entries

/-- `positional_values = [v for _, v in sorted(positional_args)]`. -/
def positionalValues (args : List (String × Value)) : List Value :=
  (sortByIndex (positionalEntries args)).map Prod.snd

/-- The value coercion both branches of `_coerce_args` apply: a value of
kind `"function"` whose payload names a registered verb resolves to the
bound handler (`Obj.func`), an unregistered name passes through as the
raw string, any other payload is returned unchanged (Python's
`dict.get(x, x)` for a key that cannot be in the registry); a value of
any other kind passes its payload through. -/
def coerceVal (reg : Registry) (v : Value) : Obj :=
  if v.kind == "function" then
    match v.value with
    | Obj.str f => if (reg.lookup f).isSome then Obj.func f else Obj.str f
    | o => o
  else v.value

/-- Python dict assignment `d[k] = v` on an association list: replace the
binding in place if the key is present, otherwise append. -/
def dictInsert (d : List (String × Obj)) (k : String) (v : Obj) : List (String × Obj) :=
  match d with
  | [] => [(k, v)]
  | p :: rest => if p.1 == k then (k, v) :: rest else p :: dictInsert rest k v

/-- Second loop of `_coerce_args`: every non-positional entry is coerced
and stored under its original name, in dict iteration order. -/
def coerceNamed (reg : Registry) (args : List (String × Value)) : List (String × Obj) :=
  args.foldl (fun d p =>
    if isPositionalKey p.1 then d
    else dictInsert d p.1 (coerceVal reg p.2)) []

/-- `Interpreter._coerce_args`: named arguments under their own names,
then the positional values — one value directly under `"_positional"`,
several as a list under the same key, none at all when there are no
positional values. -/
def coerceArgs (reg : Registry) (args : List (String × Value)) : List (String × Obj) :=
  let named := coerceNamed reg args
  match positionalValues args with
  | [] => named
  | [v] => dictInsert named "_positional" (coerceVal reg v)
  | vs => dictInsert named "_positional" (Obj.list (vs.map (coerceVal reg)))

/-- The result-interpretation block of `interpret_stream` (one handler
result): an `Action` is yielded and becomes the context; a 2-tuple is
unpacked as `(action, new_context)`; a list is yielded element by
element, the context moving to `result[-1]` only when the list is
nonempty; anything else raises the invalid-result `ValueError`.  The
returned pair is (objects yielded, context after the call). -/
def interpResult (verb : String) (ctx : Obj) : Obj → Except InterpError (List Obj × Obj)
  | Obj.action k p => .ok ([Obj.action k p], Obj.action k p)
  | Obj.tuple [a, c] => .ok ([a], c)
  | Obj.list as => .ok (as, as.getLastD ctx)
  | r => .error (.invalidResult verb r)

/-- One iteration of the `interpret_stream` loop: look the verb up
(raising `Unknown verb` when absent), coerce the arguments, invoke the
handler with them and the current `_context`, and interpret the result. -/
def runCall (reg : Registry) (ctx : Obj) (c : Call) : Except InterpError (List Obj × Obj) :=
  match reg.lookup c.name with
  | Option.none => .error (.unknownVerb c.name)
  | Option.some h => interpResult c.name ctx (h (coerceArgs reg c.args) ctx)

/-- The `interpret_stream` loop over the remaining calls, carrying the
context.  The result is the sequence of objects the generator yields
before it finishes, paired with the error it raises at the end, if any
(`Option.none` means the generator is exhausted normally): a raising
call contributes no yields of its own, and nothing after it runs. -/
def interpretStreamAux (reg : Registry) (ctx : Obj) : List Call → List Obj × Option InterpError
  | [] => ([], Option.none)
  | c :: rest =>
    match runCall reg ctx c with
    | .error e => ([], Option.some e)
    | .ok (ys, ctx2) =>
      let t := interpretStreamAux reg ctx2 rest
      (ys ++ t.1, t.2)

/-- `Interpreter.interpret_stream`: the loop starts with `context = None`. -/
def interpretStream (reg : Registry) (chain : CallChain) : List Obj × Option InterpError :=
  interpretStreamAux reg Obj.noneObj chain.calls

/-- `Interpreter.interpret` is `list(self.interpret_stream(call_chain))`:
draining the generator returns the yielded objects when it finishes, and
propagates the exception (discarding the partial list) when it raises. -/
def interpret (reg : Registry) (chain : CallChain) : Except InterpError (List Obj) :=
  match interpretStream reg chain with
  | (ys, Option.none) => .ok ys
  | (_, Option.some e) => .error e

/-- Argument of `Grammar.execute`: DSL source text — standing for the
`CallChain` the external parser produces from it, the parser being the
out-of-scope black box of the spec — or a pre-built list of actions. -/
inductive CodeOrPlan where
  | code (chain : CallChain)
  | plan (acts : List Obj)

/-- `Grammar.execute` observed through the runtime boundary: the first
component is the exact sequence of actions fed to `runtime.execute`, in
order; the second is the error `execute` raises, if any.  Source text is
compiled eagerly first, so a compile error leaves the executor loop
never entered (zero executor invocations). -/
def executeTrace (reg : Registry) : CodeOrPlan → List Obj × Option InterpError
  | .code ch =>
    match interpret reg ch with
    | .ok acts => (acts, Option.none)
    | .error e => ([], Option.some e)
  | .plan acts => (acts, Option.none)

/-- Whether an object is an `Action` (`isinstance(result, Action)`). -/
def isActionB : Obj → Bool
  | Obj.action _ _ => true
  | _ => false

/-- The polymorphic handler contract of the spec's verb boundary: a
single `Action`, an `(Action, new-context)` pair, or a sequence of
`Action`s. -/
def validResult : Obj → Bool
  | Obj.action _ _ => true
  | Obj.tuple [a, _] => isActionB a
  | Obj.list as => as.all isActionB
  | _ => false

/-- The actions a handler result explicitly returns, in order. -/
def returnedActions : Obj → List Obj
  | Obj.action k p => [Obj.action k p]
  | Obj.tuple [a, _] => [a]
  | Obj.list as => as
  | _ => []

/-- The context a handler result establishes for the next call. -/
def nextContext (ctx : Obj) : Obj → Obj
  | Obj.action k p => Obj.action k p
  | Obj.tuple [_, c] => c
  | Obj.list as => as.getLastD ctx
  | _ => ctx

/-- Spec-side description of the interpreter's output: the concatenation,
in left-to-right call order, of the actions each handler explicitly
returns, the context threading from each call to the next. -/
def declaredActions (reg : Registry) (ctx : Obj) : List Call → List Obj
  | [] => []
  | c :: rest =>
    match reg.lookup c.name with
    | Option.none => []
    | Option.some h =>
      let r := h (coerceArgs reg c.args) ctx
      returnedActions r ++ declaredActions reg (nextContext ctx r) rest

/-! ## Helper lemmas -/

/-- A handler result inside the polymorphic contract is interpreted
without error, yielding its returned actions and establishing its next
context. -/
theorem interpResult_of_valid (verb : String) (ctx : Obj) :
    ∀ (r : Obj), validResult r = true →
      interpResult verb ctx r = .ok (returnedActions r, nextContext ctx r)
  | Obj.action _ _, _ => rfl
  | Obj.tuple [_, _], _ => rfl
  | Obj.list _, _ => rfl
  | Obj.noneObj, hv => Bool.noConfusion hv
  | Obj.int _, hv => Bool.noConfusion hv
  | Obj.str _, hv => Bool.noConfusion hv
  | Obj.bool _, hv => Bool.noConfusion hv
  | Obj.func _, hv => Bool.noConfusion hv
  | Obj.tuple [], hv => Bool.noConfusion hv
  | Obj.tuple [_], hv => Bool.noConfusion hv
  | Obj.tuple (_ :: _ :: _ :: _), hv => Bool.noConfusion hv

/-- When every verb of the chain is registered and every registered
handler keeps the polymorphic contract, the stream loop completes and
yields exactly the declared concatenation, from any starting context. -/
theorem streamAux_of_valid (reg : Registry)
    (hv : ∀ n h, reg.lookup n = Option.some h →
      ∀ args ctx, validResult (h args ctx) = true)
    (calls : List Call) :
    ∀ (ctx : Obj), (∀ c ∈ calls, (reg.lookup c.name).isSome = true) →
      interpretStreamAux reg ctx calls = (declaredActions reg ctx calls, Option.none) := by
  induction calls with
  | nil => intro ctx _; rfl
  | cons c rest ih =>
    intro ctx hr
    obtain ⟨h, hh⟩ := Option.isSome_iff_exists.mp (hr c (List.mem_cons_self _ _))
    have hval := hv c.name h hh (coerceArgs reg c.args) ctx
    have hstep := interpResult_of_valid c.name ctx _ hval
    simp only [interpretStreamAux, runCall, hh, hstep, declaredActions]
    rw [ih _ (fun c' hc' => hr c' (List.mem_cons_of_mem _ hc'))]

/-- When the calls before `bad` are all registered with contract-keeping
handlers and `bad` is unregistered, the stream yields exactly the
output of the registered part and then raises `Unknown verb`; nothing of
`bad` or of the calls after it is produced. -/
theorem streamAux_unknown (reg : Registry)
    (hv : ∀ n h, reg.lookup n = Option.some h →
      ∀ args ctx, validResult (h args ctx) = true)
    (bad : Call) (hbad : reg.lookup bad.name = Option.none) (post : List Call) :
    ∀ (pre : List Call) (ctx : Obj), (∀ c ∈ pre, (reg.lookup c.name).isSome = true) →
      interpretStreamAux reg ctx (pre ++ bad :: post) =
        ((interpretStreamAux reg ctx pre).1,
          Option.some (.unknownVerb bad.name)) := by
  intro pre
  induction pre with
  | nil =>
    intro ctx _
    simp only [List.nil_append, interpretStreamAux, runCall, hbad]
  | cons c rest ih =>
    intro ctx hr
    obtain ⟨h, hh⟩ := Option.isSome_iff_exists.mp (hr c (List.mem_cons_self _ _))
    have hval := hv c.name h hh (coerceArgs reg c.args) ctx
    have hstep := interpResult_of_valid c.name ctx _ hval
    simp only [List.cons_append, interpretStreamAux, runCall, hh, hstep, List.append_eq]
    rw [ih _ (fun c' hc' => hr c' (List.mem_cons_of_mem _ hc'))]

/-! ## Concrete demonstration material used by witnesses -/

/-- A demo verb handler: returns one `Action` that records the context
it was invoked with. -/
def demoHandler : Handler := fun _ ctx => Obj.action "create_track" [("prev", ctx)]

/-- A second demo handler, returning an action that records its context
under another kind. -/
def demoHandler2 : Handler := fun _ ctx => Obj.action "add_clip" [("ctx", ctx)]

/-- A demo registry with two registered verbs. -/
def demoReg : Registry := [("track", demoHandler), ("add_clip", demoHandler2)]

/-- A demo call of the registered verb `track`, without arguments. -/
def demoCall : Call := ⟨"track", []⟩

/-- A demo call of the registered verb `add_clip`. -/
def demoCall2 : Call := ⟨"add_clip", []⟩

/-- A demo call whose verb is not registered. -/
def demoBad : Call := ⟨"foo", [("x", ⟨"number", Obj.int 1⟩)]⟩

/-- Every handler of `demoReg` keeps the polymorphic contract. -/
theorem demoReg_valid : ∀ n h, (demoReg.lookup n) = Option.some h →
    ∀ args ctx, validResult (h args ctx) = true := by
  intro n h hl args ctx
  simp only [demoReg, List.lookup] at hl
  split at hl
  · cases hl; rfl
  · split at hl
    · cases hl; rfl
    · exact Option.noConfusion hl

/-! ## Claims -/

/-- Claim C1: for every call chain whose verbs are all registered and
whose handlers all return values within the polymorphic contract, the
interpretation output — streaming and eager alike — is exactly the
concatenation, in left-to-right call order, of the actions each handler
explicitly returns, with no error raised. -/
theorem interpret_stream_is_declared_concatenation (reg : Registry) (chain : CallChain)
    (hreg : ∀ c ∈ chain.calls, (reg.lookup c.name).isSome = true)
    (hv : ∀ n h, reg.lookup n = Option.some h →
      ∀ args ctx, validResult (h args ctx) = true) :
    interpretStream reg chain = (declaredActions reg Obj.noneObj chain.calls, Option.none)
    ∧ interpret reg chain = .ok (declaredActions reg Obj.noneObj chain.calls) := by
  have hs := streamAux_of_valid reg hv chain.calls Obj.noneObj hreg
  exact ⟨hs, by rw [interpret, interpretStream, hs]⟩

/-- Witness for C1 at a concrete two-call chain: the two actions come
out in call order, the second one seeing the first as context. -/
theorem interpret_stream_is_declared_concatenation_witness :
    interpretStream demoReg ⟨[demoCall, demoCall2]⟩ =
      ([Obj.action "create_track" [("prev", Obj.noneObj)],
        Obj.action "add_clip" [("ctx", Obj.action "create_track" [("prev", Obj.noneObj)])]],
        Option.none)
    ∧ interpret demoReg ⟨[demoCall, demoCall2]⟩ =
      .ok [Obj.action "create_track" [("prev", Obj.noneObj)],
        Obj.action "add_clip" [("ctx", Obj.action "create_track" [("prev", Obj.noneObj)])]] :=
  ⟨((interpret_stream_is_declared_concatenation demoReg ⟨[demoCall, demoCall2]⟩
      (by intro c hc; fin_cases hc <;> rfl) demoReg_valid).1).trans (by rfl),
    ((interpret_stream_is_declared_concatenation demoReg ⟨[demoCall, demoCall2]⟩
      (by intro c hc; fin_cases hc <;> rfl) demoReg_valid).2).trans (by rfl)⟩

/-- Claim C2: the eager form is exactly the drained streaming form — when the
stream finishes normally, `interpret` returns precisely its yields in
order, and when the stream raises, `interpret` raises the same error. -/
theorem interpret_drains_stream (reg : Registry) (chain : CallChain) :
    interpret reg chain =
      match (interpretStream reg chain).2 with
      | Option.none => .ok (interpretStream reg chain).1
      | Option.some e => .error e := by
  rcases h : interpretStream reg chain with ⟨ys, e⟩
  rw [interpret, h]
  cases e <;> rfl

/-- Claim C9: interpreting the empty call chain succeeds with an empty action
sequence in both forms, whatever the registry — no handler runs and no
error is raised. -/
theorem empty_chain_interprets_to_nothing (reg : Registry) :
    interpretStream reg ⟨[]⟩ = ([], Option.none) ∧ interpret reg ⟨[]⟩ = .ok [] :=
  ⟨rfl, rfl⟩

/-- Claim C3: on a chain whose calls before `bad` are registered with
contract-keeping handlers and whose call `bad` is unregistered,
streaming interpretation raises `Unknown verb` at `bad`: everything the
earlier calls produced has been yielded and stands, and nothing is
produced for `bad` or for any call after it. -/
theorem unknown_verb_halts_after_prior_yields (reg : Registry)
    (pre post : List Call) (bad : Call)
    (hpre : ∀ c ∈ pre, (reg.lookup c.name).isSome = true)
    (hv : ∀ n h, reg.lookup n = Option.some h →
      ∀ args ctx, validResult (h args ctx) = true)
    (hbad : reg.lookup bad.name = Option.none) :
    interpretStream reg ⟨pre ++ bad :: post⟩ =
      ((interpretStream reg ⟨pre⟩).1, Option.some (.unknownVerb bad.name)) :=
  streamAux_unknown reg hv bad hbad post pre Obj.noneObj hpre

/-- Witness for C3: `track . foo . track` with `foo` unregistered
yields exactly the one action of the first `track`, then raises. -/
theorem unknown_verb_halts_after_prior_yields_witness :
    interpretStream demoReg ⟨[demoCall, demoBad, demoCall]⟩ =
      ([Obj.action "create_track" [("prev", Obj.noneObj)]],
        Option.some (.unknownVerb "foo")) :=
  (unknown_verb_halts_after_prior_yields demoReg [demoCall] [demoCall] demoBad
    (by intro c hc; fin_cases hc; rfl) demoReg_valid rfl).trans (by rfl)

/-- Claim C4: result interpretation is by shape — an `Action` is yielded and
becomes the context; an `(action, new_context)` 2-tuple has the action
yielded and the second component adopted as context; a list of
`Action`s is yielded element by element with the last element adopted
as context, the context staying unchanged on an empty list; a result
that is no `Action`, no 2-tuple and no list raises the invalid-result
error naming the verb and the raw result. -/
theorem handler_result_interpreted_by_shape (verb : String) (ctx : Obj) :
    (∀ k p, interpResult verb ctx (Obj.action k p)
        = .ok ([Obj.action k p], Obj.action k p))
    ∧ (∀ k p c, interpResult verb ctx (Obj.tuple [Obj.action k p, c])
        = .ok ([Obj.action k p], c))
    ∧ (∀ as, as.all isActionB = true →
        interpResult verb ctx (Obj.list as) = .ok (as, as.getLastD ctx))
    ∧ interpResult verb ctx (Obj.list []) = .ok ([], ctx)
    ∧ (∀ r, isActionB r = false → (∀ x c, r ≠ Obj.tuple [x, c]) →
        (∀ xs, r ≠ Obj.list xs) →
        interpResult verb ctx r = .error (.invalidResult verb r)) := by
  refine ⟨fun k p => rfl, fun k p c => rfl, fun as _ => rfl, rfl, ?_⟩
  intro r h1 h2 h3
  match r with
  | Obj.noneObj => rfl
  | Obj.int _ => rfl
  | Obj.str _ => rfl
  | Obj.bool _ => rfl
  | Obj.func _ => rfl
  | Obj.action _ _ => exact Bool.noConfusion h1
  | Obj.list xs => exact absurd rfl (h3 xs)
  | Obj.tuple [] => rfl
  | Obj.tuple [_] => rfl
  | Obj.tuple [x, c] => exact absurd rfl (h2 x c)
  | Obj.tuple (_ :: _ :: _ :: _) => rfl

/-- Witness for C4 at the out-of-contract result `"oops"` (a bare
string): the invalid-result error names the verb and the raw result. -/
theorem handler_result_interpreted_by_shape_witness :
    interpResult "greet" Obj.noneObj (Obj.str "oops")
      = .error (.invalidResult "greet" (Obj.str "oops")) :=
  (handler_result_interpreted_by_shape "greet" Obj.noneObj).2.2.2.2 (Obj.str "oops")
    rfl (fun _ _ h => Obj.noConfusion h) (fun _ h => Obj.noConfusion h)

/-- Claim C10: a tuple of exactly two elements is unconditionally unpacked as
an `(action, new_context)` pair — the first element is yielded without
being checked to be an `Action` and the second becomes the context, so
a 2-tuple of two `Action`s is a pair and never a sequence, while a
tuple of any other length raises the invalid-result error instead of
being treated as a sequence. -/
theorem two_tuple_is_always_pair (verb : String) (ctx : Obj) :
    (∀ x c, interpResult verb ctx (Obj.tuple [x, c]) = .ok ([x], c))
    ∧ (∀ k1 p1 k2 p2,
        interpResult verb ctx (Obj.tuple [Obj.action k1 p1, Obj.action k2 p2])
          = .ok ([Obj.action k1 p1], Obj.action k2 p2))
    ∧ (∀ xs, xs.length ≠ 2 →
        interpResult verb ctx (Obj.tuple xs)
          = .error (.invalidResult verb (Obj.tuple xs))) := by
  refine ⟨fun x c => rfl, fun k1 p1 k2 p2 => rfl, ?_⟩
  intro xs h
  match xs with
  | [] => rfl
  | [_] => rfl
  | [_, _] => exact absurd rfl h
  | _ :: _ :: _ :: _ => rfl

/-- Witness for C10 at the length-1 tuple `("a",)`: the invalid-result
error is raised rather than any sequence treatment. -/
theorem two_tuple_is_always_pair_witness :
    interpResult "map" Obj.noneObj (Obj.tuple [Obj.str "a"])
      = .error (.invalidResult "map" (Obj.tuple [Obj.str "a"])) :=
  (two_tuple_is_always_pair "map" Obj.noneObj).2.2 [Obj.str "a"] (by decide)

/-- Claim C7: the first handler of a chain is invoked with the null context,
and when the first call's result interpretation establishes context
`ctx1`, the whole stream continues as the first call's yields followed
by the rest of the loop started at `ctx1` — in which the second
handler is applied to exactly `ctx1` as its `_context` argument. -/
theorem context_threads_previous_result (reg : Registry) (c₁ c₂ : Call)
    (rest : List Call) (h₁ h₂ : Handler) (ys : List Obj) (ctx1 : Obj)
    (hl1 : reg.lookup c₁.name = Option.some h₁)
    (hl2 : reg.lookup c₂.name = Option.some h₂)
    (hr1 : interpResult c₁.name Obj.noneObj
        (h₁ (coerceArgs reg c₁.args) Obj.noneObj) = .ok (ys, ctx1)) :
    interpretStream reg ⟨c₁ :: c₂ :: rest⟩ =
      (ys ++ (interpretStreamAux reg ctx1 (c₂ :: rest)).1,
        (interpretStreamAux reg ctx1 (c₂ :: rest)).2)
    ∧ interpretStreamAux reg ctx1 (c₂ :: rest) =
        (match interpResult c₂.name ctx1 (h₂ (coerceArgs reg c₂.args) ctx1) with
         | .error e => ([], Option.some e)
         | .ok (ys₂, ctx2) =>
           (ys₂ ++ (interpretStreamAux reg ctx2 rest).1,
             (interpretStreamAux reg ctx2 rest).2)) := by
  constructor
  · simp only [interpretStream, interpretStreamAux, runCall, hl1, hr1]
  · simp only [interpretStreamAux, runCall, hl2]

/-- Witness for C7: after `track` establishes its action as context,
`add_clip`'s handler observes exactly that action and embeds it in its
own payload. -/
theorem context_threads_previous_result_witness :
    interpretStream demoReg ⟨[demoCall, demoCall2]⟩ =
      ([Obj.action "create_track" [("prev", Obj.noneObj)]] ++
        (interpretStreamAux demoReg (Obj.action "create_track" [("prev", Obj.noneObj)])
          [demoCall2]).1,
        (interpretStreamAux demoReg (Obj.action "create_track" [("prev", Obj.noneObj)])
          [demoCall2]).2)
    ∧ interpretStreamAux demoReg (Obj.action "create_track" [("prev", Obj.noneObj)])
        [demoCall2] =
        (match interpResult "add_clip" (Obj.action "create_track" [("prev", Obj.noneObj)])
            (demoHandler2 (coerceArgs demoReg [])
              (Obj.action "create_track" [("prev", Obj.noneObj)])) with
         | .error e => ([], Option.some e)
         | .ok (ys₂, ctx2) =>
           (ys₂ ++ (interpretStreamAux demoReg ctx2 []).1,
             (interpretStreamAux demoReg ctx2 []).2)) :=
  context_threads_previous_result demoReg demoCall demoCall2 [] demoHandler demoHandler2
    [Obj.action "create_track" [("prev", Obj.noneObj)]]
    (Obj.action "create_track" [("prev", Obj.noneObj)]) rfl rfl rfl

/-- Claim C8: `execute` on a pre-built plan feeds exactly that plan to the
executor in order; on source whose chain compiles it feeds exactly the
compiled sequence in order; and on source whose chain hits an
unregistered verb (after registered, contract-keeping calls) it raises
the unknown-verb error with the executor invoked zero times. -/
theorem execute_dispatch_order_and_unknown_verb (reg : Registry) :
    (∀ acts, executeTrace reg (.plan acts) = (acts, Option.none))
    ∧ (∀ ch acts, interpret reg ch = .ok acts →
        executeTrace reg (.code ch) = (acts, Option.none))
    ∧ (∀ pre post bad, (∀ c ∈ pre, (reg.lookup c.name).isSome = true) →
        (∀ n h, reg.lookup n = Option.some h →
          ∀ args ctx, validResult (h args ctx) = true) →
        reg.lookup bad.name = Option.none →
        executeTrace reg (.code ⟨pre ++ bad :: post⟩) =
          ([], Option.some (.unknownVerb bad.name))) := by
  refine ⟨fun acts => rfl, fun ch acts h => by simp only [executeTrace, h], ?_⟩
  intro pre post bad hpre hv hbad
  have hs := streamAux_unknown reg hv bad hbad post pre Obj.noneObj hpre
  simp only [executeTrace, interpret, interpretStream, hs]

/-- Witness for C8: the chain `track . foo` with `foo` unregistered
makes `execute` raise the unknown-verb error with an empty executor
trace. -/
theorem execute_dispatch_order_and_unknown_verb_witness :
    executeTrace demoReg (.code ⟨[demoCall, demoBad]⟩) =
      ([], Option.some (.unknownVerb "foo")) :=
  (execute_dispatch_order_and_unknown_verb demoReg).2.2 [demoCall] [] demoBad
    (by intro c hc; fin_cases hc; rfl) demoReg_valid rfl

/-! ## Dictionary lookup lemmas for argument coercion -/

/-- Assigning a key always makes it retrievable with the new value. -/
theorem lookup_dictInsert_self (k : String) (v : Obj) :
    ∀ (d : List (String × Obj)), (dictInsert d k v).lookup k = Option.some v := by
  intro d
  induction d with
  | nil => simp [dictInsert, List.lookup]
  | cons p rest ih =>
    by_cases h : p.1 = k
    · subst h; simp [dictInsert, List.lookup]
    · have h1 : (p.1 == k) = false := beq_eq_false_iff_ne.mpr h
      have h2 : (k == p.1) = false := beq_eq_false_iff_ne.mpr (Ne.symm h)
      simp [dictInsert, h1, List.lookup, h2, ih]

/-- Assigning one key leaves every other key's lookup unchanged. -/
theorem lookup_dictInsert_ne (k q : String) (v : Obj) (hne : k ≠ q) :
    ∀ (d : List (String × Obj)), (dictInsert d q v).lookup k = d.lookup k := by
  intro d
  induction d with
  | nil => simp [dictInsert, List.lookup, beq_eq_false_iff_ne.mpr hne]
  | cons p rest ih =>
    by_cases h : p.1 = q
    · subst h
      simp [dictInsert, List.lookup, beq_eq_false_iff_ne.mpr hne]
    · have h1 : (p.1 == q) = false := beq_eq_false_iff_ne.mpr h
      cases hkp : (k == p.1) with
      | true => simp [dictInsert, h1, List.lookup, hkp]
      | false => simp [dictInsert, h1, List.lookup, hkp, ih]

/-- The named-argument loop never disturbs a key that no argument
carries. -/
theorem lookup_coerceNamed_absent (reg : Registry) (key : String) :
    ∀ (args : List (String × Value)) (d : List (String × Obj)),
      (∀ p ∈ args, p.1 ≠ key) →
      (args.foldl (fun d p => if isPositionalKey p.1 then d
        else dictInsert d p.1 (coerceVal reg p.2)) d).lookup key = d.lookup key := by
  intro args
  induction args with
  | nil => intro d _; rfl
  | cons p rest ih =>
    intro d hk
    simp only [List.foldl_cons]
    by_cases hp : isPositionalKey p.1
    · rw [if_pos hp]
      exact ih d (fun q hq => hk q (List.mem_cons_of_mem _ hq))
    · rw [if_neg hp]
      rw [ih _ (fun q hq => hk q (List.mem_cons_of_mem _ hq))]
      exact lookup_dictInsert_ne key p.1 _ (Ne.symm (hk p (List.mem_cons_self _ _))) d

/-- With unique dict keys, the named-argument loop stores a
non-positional argument's coerced value under its own name. -/
theorem lookup_coerceNamed_mem (reg : Registry) (name : String) (v : Value)
    (hnp : isPositionalKey name = false) :
    ∀ (args : List (String × Value)) (d : List (String × Obj)),
      (args.map Prod.fst).Nodup → (name, v) ∈ args →
      (args.foldl (fun d p => if isPositionalKey p.1 then d
        else dictInsert d p.1 (coerceVal reg p.2)) d).lookup name
        = Option.some (coerceVal reg v) := by
  intro args
  induction args with
  | nil => intro d _ hmem; exact absurd hmem (List.not_mem_nil _)
  | cons p rest ih =>
    intro d hnd hmem
    rw [List.map_cons] at hnd
    obtain ⟨hhead, htail⟩ := List.nodup_cons.mp hnd
    rcases List.mem_cons.mp hmem with heq | hmem'
    · cases heq.symm
      simp only [List.foldl_cons, hnp, Bool.false_eq_true, if_false]
      rw [lookup_coerceNamed_absent reg name rest _
        (fun q hq e => hhead (e ▸
          (List.mem_map_of_mem Prod.fst hq : q.1 ∈ rest.map Prod.fst)))]
      exact lookup_dictInsert_self name (coerceVal reg v) d
    · have hne : p.1 ≠ name := fun e =>
        hhead (e ▸ List.mem_map_of_mem Prod.fst hmem')
      simp only [List.foldl_cons]
      by_cases hp : isPositionalKey p.1
      · rw [if_pos hp]; exact ih _ htail hmem'
      · rw [if_neg hp]; exact ih _ htail hmem'

/-! ## Canonical ordering of positional entries -/

/-- Sorting by index is canonical: two permuted entry lists with no
duplicate index sort to the same list. -/
theorem sortByIndex_eq_of_perm (l₁ l₂ : List (Int × Value))
    (hp : l₁.Perm l₂) (hnd : (l₁.map Prod.fst).Nodup) :
    sortByIndex l₁ = sortByIndex l₂ := by
  haveI : IsTotal (Int × Value) (fun a b => a.1 ≤ b.1) := ⟨fun a b => le_total a.1 b.1⟩
  haveI : IsTrans (Int × Value) (fun a b => a.1 ≤ b.1) :=
    ⟨fun a b c hab hbc => le_trans hab hbc⟩
  haveI : IsAntisymm (Int × Value) (fun a b => a.1 < b.1 ∨ a = b) := ⟨by
    rintro a b (h1 | h1) (h2 | h2)
    · exact absurd h2 (not_lt.mpr (le_of_lt h1))
    · exact h2.symm
    · exact h1
    · exact h1⟩
  have hperm₁ : (sortByIndex l₁).Perm l₁ := List.perm_insertionSort _ l₁
  have hperm₂ : (sortByIndex l₂).Perm l₂ := List.perm_insertionSort _ l₂
  have hnd₂ : (l₂.map Prod.fst).Nodup := ((hp.map Prod.fst).nodup_iff).mp hnd
  have hnds₁ : ((sortByIndex l₁).map Prod.fst).Nodup :=
    ((hperm₁.map Prod.fst).nodup_iff).mpr hnd
  have hnds₂ : ((sortByIndex l₂).map Prod.fst).Nodup :=
    ((hperm₂.map Prod.fst).nodup_iff).mpr hnd₂
  have hs₁ : (sortByIndex l₁).Sorted (fun a b => a.1 ≤ b.1) :=
    List.sorted_insertionSort _ l₁
  have hs₂ : (sortByIndex l₂).Sorted (fun a b => a.1 ≤ b.1) :=
    List.sorted_insertionSort _ l₂
  have hstrict₁ : (sortByIndex l₁).Sorted (fun a b => a.1 < b.1 ∨ a = b) :=
    (hs₁.and (List.pairwise_map.mp hnds₁)).imp
      (fun hab => Or.inl (lt_of_le_of_ne hab.1 hab.2))
  have hstrict₂ : (sortByIndex l₂).Sorted (fun a b => a.1 < b.1 ∨ a = b) :=
    (hs₂.and (List.pairwise_map.mp hnds₂)).imp
      (fun hab => Or.inl (lt_of_le_of_ne hab.1 hab.2))
  exact List.eq_of_perm_of_sorted (hperm₁.trans (hp.trans hperm₂.symm)) hstrict₁ hstrict₂

/-- Reordering the argument mapping permutes the parsed positional
entries. -/
theorem positionalEntries_perm (args args' : List (String × Value))
    (hp : args.Perm args') :
    (positionalEntries args).Perm (positionalEntries args') :=
  ((List.perm_insertionSort _ args).trans
    (hp.trans (List.perm_insertionSort _ args').symm)).filterMap _

/-- Appending an entry whose positional key has an unparsable index
leaves the parsed positional entries unchanged up to order. -/
theorem positionalEntries_append_malformed (args : List (String × Value))
    (k : String) (v : Value) (hk : isPositionalKey k = true)
    (hb : parseIndex (lastSegment k) = Option.none) :
    (positionalEntries (args ++ [(k, v)])).Perm (positionalEntries args) := by
  unfold positionalEntries sortByName
  refine ((List.perm_insertionSort _ _).filterMap _).trans ?_
  rw [List.filterMap_append]
  have hsingle : List.filterMap (fun p : String × Value =>
      if isPositionalKey p.1 then (parseIndex (lastSegment p.1)).map (fun i => (i, p.2))
      else Option.none) [(k, v)] = [] := by
    simp [hk, hb]
  rw [hsingle, List.append_nil]
  exact ((List.perm_insertionSort _ args).filterMap _).symm

/-- Claim C5 (amended): positional values are reconstructed by encoded index,
independent of the mapping's iteration order, and entries with an
unparsable index are silently skipped; exactly one positional value is
exposed directly under `"_positional"`, several as an ordered list
under that key, and — provided no named argument itself uses the
literal name `"_positional"` — zero positional values leave no such
key. -/
theorem positional_reconstruction_by_index (reg : Registry)
    (args : List (String × Value))
    (hidx : ((positionalEntries args).map Prod.fst).Nodup)
    (hname : ∀ p ∈ args, p.1 ≠ "_positional") :
    (∀ args', args.Perm args' → positionalValues args' = positionalValues args)
    ∧ (∀ k v, isPositionalKey k = true → parseIndex (lastSegment k) = Option.none →
        positionalValues (args ++ [(k, v)]) = positionalValues args)
    ∧ (positionalValues args = [] →
        (coerceArgs reg args).lookup "_positional" = Option.none)
    ∧ (∀ v, positionalValues args = [v] →
        (coerceArgs reg args).lookup "_positional" = Option.some (coerceVal reg v))
    ∧ (∀ v w rest, positionalValues args = v :: w :: rest →
        (coerceArgs reg args).lookup "_positional"
          = Option.some (Obj.list ((v :: w :: rest).map (coerceVal reg)))) := by
  refine ⟨?_, ?_, ?_, ?_, ?_⟩
  · intro args' hp
    unfold positionalValues
    rw [sortByIndex_eq_of_perm (positionalEntries args') (positionalEntries args)
      (positionalEntries_perm args' args hp.symm)
      ((((positionalEntries_perm args args' hp).map Prod.fst).nodup_iff).mp hidx)]
  · intro k v hk hb
    unfold positionalValues
    rw [sortByIndex_eq_of_perm (positionalEntries (args ++ [(k, v)]))
      (positionalEntries args) (positionalEntries_append_malformed args k v hk hb)
      ((((positionalEntries_append_malformed args k v hk hb).map
        Prod.fst).nodup_iff).mpr hidx)]
  · intro hpv
    simp only [coerceArgs, hpv]
    exact (lookup_coerceNamed_absent reg "_positional" args [] hname).trans rfl
  · intro v hpv
    simp only [coerceArgs, hpv]
    exact lookup_dictInsert_self "_positional" (coerceVal reg v) _
  · intro v w rest hpv
    simp only [coerceArgs, hpv]
    exact lookup_dictInsert_self "_positional" _ _

/-- Counterexample to C5 as stated: the argument mapping with the single
named argument `_positional` has zero positional values, yet the
coerced result does expose the key `"_positional"` (holding the named
argument's value), because the named loop stores every non-positional
argument under its own name. -/
theorem positional_key_collision_cex :
    positionalValues [("_positional", Value.mk "string" (Obj.str "x"))] = []
    ∧ (coerceArgs [] [("_positional", Value.mk "string" (Obj.str "x"))]).lookup "_positional"
        = Option.some (Obj.str "x") :=
  ⟨rfl, rfl⟩

/-- Witness for the amended C5 at a concrete mapping given in scrambled
index order (`_positional_1` first): reconstruction follows the encoded
indices, a swap of the mapping's iteration order changes nothing, and
the two positional values appear as an ordered list under
`"_positional"`. -/
theorem positional_reconstruction_by_index_witness :
    positionalValues [("_positional_0", Value.mk "number" (Obj.int 10)),
        ("_positional_1", Value.mk "number" (Obj.int 20)),
        ("name", Value.mk "string" (Obj.str "n"))]
      = positionalValues [("_positional_1", Value.mk "number" (Obj.int 20)),
        ("_positional_0", Value.mk "number" (Obj.int 10)),
        ("name", Value.mk "string" (Obj.str "n"))]
    ∧ (coerceArgs [] [("_positional_1", Value.mk "number" (Obj.int 20)),
        ("_positional_0", Value.mk "number" (Obj.int 10)),
        ("name", Value.mk "string" (Obj.str "n"))]).lookup "_positional"
      = Option.some (Obj.list [Obj.int 10, Obj.int 20]) :=
  ⟨(positional_reconstruction_by_index []
      [("_positional_1", Value.mk "number" (Obj.int 20)),
        ("_positional_0", Value.mk "number" (Obj.int 10)),
        ("name", Value.mk "string" (Obj.str "n"))]
      (by decide) (by decide)).1
      [("_positional_0", Value.mk "number" (Obj.int 10)),
        ("_positional_1", Value.mk "number" (Obj.int 20)),
        ("name", Value.mk "string" (Obj.str "n"))]
      (List.Perm.swap _ _ _),
    ((positional_reconstruction_by_index []
      [("_positional_1", Value.mk "number" (Obj.int 20)),
        ("_positional_0", Value.mk "number" (Obj.int 10)),
        ("name", Value.mk "string" (Obj.str "n"))]
      (by decide) (by decide)).2.2.2.2
      (Value.mk "number" (Obj.int 10)) (Value.mk "number" (Obj.int 20)) [] rfl).trans
      (by rfl)⟩

/-- Claim C6: a function-reference argument value (named or positional) is
resolved against the verb registry — a registered name is substituted
by the bound handler, an unregistered name passes through as the raw
identifier string; in particular a function reference naming a
registered verb resolves to that verb's handler, not to the literal
string. -/
theorem function_reference_resolution (reg : Registry)
    (args : List (String × Value)) (name f : String)
    (hmem : (name, Value.mk "function" (Obj.str f)) ∈ args)
    (hnodup : (args.map Prod.fst).Nodup)
    (hnp : isPositionalKey name = false)
    (hns : name ≠ "_positional") :
    (coerceArgs reg args).lookup name =
      Option.some (if (reg.lookup f).isSome then Obj.func f else Obj.str f)
    ∧ (∀ g, positionalValues args = [Value.mk "function" (Obj.str g)] →
        (coerceArgs reg args).lookup "_positional" =
          Option.some (if (reg.lookup g).isSome then Obj.func g else Obj.str g))
    ∧ Obj.func f ≠ Obj.str f := by
  have hcv : ∀ q, coerceVal reg (Value.mk "function" (Obj.str q))
      = if (reg.lookup q).isSome then Obj.func q else Obj.str q := fun q => rfl
  have hn : (coerceNamed reg args).lookup name
      = Option.some (coerceVal reg (Value.mk "function" (Obj.str f))) :=
    lookup_coerceNamed_mem reg name _ hnp args [] hnodup hmem
  refine ⟨?_, ?_, fun h => Obj.noConfusion h⟩
  · rw [← hcv f, ← hn]
    rcases hpv : positionalValues args with _ | ⟨v, _ | ⟨w, vs⟩⟩
    · simp only [coerceArgs, hpv]
    · simp only [coerceArgs, hpv]
      exact lookup_dictInsert_ne name "_positional" _ hns _
    · simp only [coerceArgs, hpv]
      exact lookup_dictInsert_ne name "_positional" _ hns _
  · intro g hpv
    simp only [coerceArgs, hpv]
    exact (lookup_dictInsert_self "_positional" _ _).trans (by rw [hcv g])

/-- A demo registry for function-reference resolution. -/
def demoRegFn : Registry := [("square", fun _ _ => Obj.action "square" [])]

/-- Witness for C6: with `square` registered and `cube` not, the named
argument `f=@square` resolves to the bound handler and `g=@cube` would
pass through as a raw string — shown here for the registered case. -/
theorem function_reference_resolution_witness :
    (coerceArgs demoRegFn [("f", Value.mk "function" (Obj.str "square"))]).lookup "f"
      = Option.some (Obj.func "square") :=
  ((function_reference_resolution demoRegFn
      [("f", Value.mk "function" (Obj.str "square"))] "f" "square"
      (List.mem_singleton.mpr rfl) (by decide) (by decide) (by decide)).1).trans (by rfl)

end GrammarSchool
